import Mathlib

/-!
Verification of the cosima-to-TTE conversion core (`cosima2TTE.ipynb`).

The development shallowly embeds the notebook's `Hit` and `CosimaSim`
classes.  Python floats are modelled as rationals (every numeral the
claims exercise is an exact decimal), a `.sim` file is modelled as the
list of its lines, and the fallible `CosimaSim.open` classmethod is
modelled as a function into `Except`.
-/

/-- Whitespace characters recognised by Python `str.split()` / `str.strip()`
(restricted to the characters that can occur on a text line). -/
def isWs (c : Char) : Bool :=
  c = ' ' || c = '\t' || c = '\n' || c = '\r'

/-- Model of Python `str.strip()`: drop leading and trailing whitespace. -/
def pyStrip (s : String) : String :=
  String.mk (((s.toList.dropWhile isWs).reverse.dropWhile isWs).reverse)

/-- Accumulator-passing worker for `pySplit`.  The second argument holds the
characters of the current field in reverse order. -/
def splitWsAux : List Char → List Char → List String
  | [], cur => if cur = [] then [] else [String.mk cur.reverse]
  | c :: cs, cur =>
    if isWs c then
      if cur = [] then splitWsAux cs []
      else String.mk cur.reverse :: splitWsAux cs []
    else splitWsAux cs (c :: cur)

/-- Model of Python `line.split()`: split on runs of whitespace, discarding
empty fields. -/
def pySplit (s : String) : List String :=
  splitWsAux s.toList []

/-- Accumulator-passing worker for `pySplitSemis`. -/
def splitSemisAux : List Char → List Char → List String
  | [], cur => [String.mk cur.reverse]
  | c :: cs, cur =>
    if c = ';' then String.mk cur.reverse :: splitSemisAux cs []
    else splitSemisAux cs (c :: cur)

/-- Model of Python `line.split(';')`: split on every semicolon, keeping
empty fields. -/
def pySplitSemis (s : String) : List String :=
  splitSemisAux s.toList []

/-- Numeric value of a digit string (most significant digit first). -/
def digitsVal (cs : List Char) : ℕ :=
  cs.foldl (fun n c => 10 * n + (c.toNat - 48)) 0

/-- Parse an optional exponent suffix (`e`/`E`, optional sign, digits) and
apply it to the already-parsed mantissa; anything else trailing is a parse
error.  Worker for `parseDec`. -/
def parseExpPart (mant : ℚ) : List Char → Option ℚ
  | [] => some mant
  | c :: rest =>
    if c = 'e' || c = 'E' then
      match rest with
      | '+' :: r =>
        let (ds, r2) := r.span Char.isDigit
        if ds = [] || r2 ≠ [] then none else some (mant * (10 : ℚ) ^ (digitsVal ds : ℤ))
      | '-' :: r =>
        let (ds, r2) := r.span Char.isDigit
        if ds = [] || r2 ≠ [] then none else some (mant * (10 : ℚ) ^ (-(digitsVal ds : ℤ)))
      | r =>
        let (ds, r2) := r.span Char.isDigit
        if ds = [] || r2 ≠ [] then none else some (mant * (10 : ℚ) ^ (digitsVal ds : ℤ))
    else none

/-- Model of Python `float(s)` on decimal literals, returning an exact
rational: optional surrounding whitespace, optional sign, an integer part
and/or a fractional part, and an optional decimal exponent.  Inputs Python's
`float` rejects (and the special spellings `inf`/`nan`, which no claim
exercises) yield `none`. -/
def parseDec (s : String) : Option ℚ :=
  let cs := (pyStrip s).toList
  let signed : ℚ × List Char :=
    match cs with
    | '+' :: r => (1, r)
    | '-' :: r => (-1, r)
    | r => (1, r)
  let sgn := signed.1
  let (ip, r1) := signed.2.span Char.isDigit
  match r1 with
  | '.' :: r2 =>
    let (fp, r3) := r2.span Char.isDigit
    if ip = [] && fp = [] then none
    else ((parseExpPart ((digitsVal ip : ℚ) + (digitsVal fp : ℚ) / (10 : ℚ) ^ fp.length) r3).map
      (fun v => sgn * v))
  | _ =>
    if ip = [] then none
    else ((parseExpPart (digitsVal ip) r1).map (fun v => sgn * v))

/-- Model of Python `int(s)`: optional surrounding whitespace, optional
sign, then a nonempty digit string. -/
def parseIntPy (s : String) : Option ℤ :=
  let cs := (pyStrip s).toList
  let signed : ℤ × List Char :=
    match cs with
    | '+' :: r => (1, r)
    | '-' :: r => (-1, r)
    | r => (1, r)
  if signed.2 ≠ [] && signed.2.all Char.isDigit then
    some (signed.1 * (digitsVal signed.2 : ℤ))
  else none

/-- Model of `line[0:2]`, the two-character record key.  (The notebook's
lines carry their trailing newline; dropping it changes no key comparison,
since a line shorter than two characters matches no recognised key either
way.) -/
def pyKey (line : String) : String :=
  String.mk (line.toList.take 2)

/-- Model of `float(line.split()[1])` up to the error case: the second
whitespace-delimited token parsed as a float, `none` on `IndexError` or
`ValueError`. -/
def parseField1Dec (line : String) : Option ℚ :=
  match pySplit line with
  | _ :: w :: _ => parseDec w
  | _ => none

/-- Model of `int(line.split()[1])` up to the error case. -/
def parseField1Int (line : String) : Option ℤ :=
  match pySplit line with
  | _ :: w :: _ => parseIntPy w
  | _ => none

/-- The notebook's `Hit` class: a single interaction with a SiPM.  Times
are in seconds and energies in keV; the `astropy` unit wrappers carry no
information beyond the magnitude here. -/
structure Hit where
  detector : String
  time : ℚ
  energy : ℚ
deriving DecidableEq

/-- The ways `CosimaSim.open` can fail (§7 of the spec): the undefined-name
`InputError` raised on `NF`/`IN` (`unsupportedConstruct`), a failed
end-of-scan assertion naming the absent key (`missingRequiredField`), a
`KeyError` from `detector_dict` (`unknownDetector`), an `IndexError` or
`ValueError` while slicing or converting a record's fields
(`malformedRecord`), and the `NameError` raised when an `HT` record is
reached before any `TI` bound the local `time` variable (`unboundTime`). -/
inductive OpenErr where
  | unsupportedConstruct
  | missingRequiredField (key : String)
  | unknownDetector (coord : String)
  | malformedRecord
  | unboundTime
deriving DecidableEq

deriving instance DecidableEq for Except

/-- The mutable state of `CosimaSim.open`'s scan loop: the `in_events`
flag, the local `time` variable (unbound = `none`), and the object's
`tstart` / `tstop` / `nthrown` / `hits` attributes. -/
structure OpenState where
  inEvents : Bool
  time : Option ℚ
  tstart : Option ℚ
  tstop : Option ℚ
  nthrown : Option ℤ
  hits : List Hit
deriving DecidableEq

/-- State at loop entry: `in_events = False`, `time` unbound, all
attributes of the fresh `CosimaSim()` unset, `hits = []`. -/
def initState : OpenState :=
  ⟨false, none, none, none, none, []⟩

/-- One iteration of the `while` loop of `CosimaSim.open`, processing a
single line.  When `in_events` is set, `EN` leaves the block, `TI` rebinds
`time`, every other non-`HT` key runs into `continue` (so the global key
chain below is NOT reached), and an `HT` record is sliced at semicolon
fields 1, 2, 4, resolved through `detector_dict` and appended to `hits`
(the subsequent fall-through to the global chain matches nothing, since
the key is `HT`).  Outside a block the `TB`/`SE`/`TE`/`TS`/`NF`/`IN`
chain runs and any other key is ignored. -/
def openStep (dm : List (String × String)) (sh : ℚ) (st : OpenState) (line : String) :
    Except OpenErr OpenState :=
  let key := pyKey line
  if st.inEvents then
    if key = "EN" then .ok { st with inEvents := false }
    else if key = "TI" then
      match parseField1Dec line with
      | none => .error .malformedRecord
      | some q => .ok { st with time := some (q + sh) }
    else if key = "HT" then
      match pySplitSemis line with
      | _ :: p1 :: p2 :: _ :: p4 :: _ =>
        let coord := pyStrip p1 ++ "," ++ pyStrip p2
        match List.lookup coord dm with
        | none => .error (.unknownDetector coord)
        | some det =>
          match parseDec p4 with
          | none => .error .malformedRecord
          | some en =>
            match st.time with
            | none => .error .unboundTime
            | some t => .ok { st with hits := st.hits ++ [⟨det, t, en⟩] }
      | _ => .error .malformedRecord
    else .ok st
  else
    if key = "TB" then
      match parseField1Dec line with
      | none => .error .malformedRecord
      | some q => .ok { st with tstart := some (q + sh) }
    else if key = "SE" then .ok { st with inEvents := true }
    else if key = "TE" then
      match parseField1Dec line with
      | none => .error .malformedRecord
      | some q => .ok { st with tstop := some (q + sh) }
    else if key = "TS" then
      match parseField1Int line with
      | none => .error .malformedRecord
      | some n => .ok { st with nthrown := some n }
    else if key = "NF" || key = "IN" then .error .unsupportedConstruct
    else .ok st

/-- The whole `while` loop: fold `openStep` over the file's lines,
propagating the first raised exception. -/
def openScan (dm : List (String × String)) (sh : ℚ) :
    OpenState → List String → Except OpenErr OpenState
  | st, [] => .ok st
  | st, l :: ls =>
    match openStep dm sh st l with
    | .error e => .error e
    | .ok st2 => openScan dm sh st2 ls

/-- The notebook's `CosimaSim` object after a successful `open` (or
`merge`, for the value view used by `to_TTE`). -/
structure CosimaSim where
  tstart : ℚ
  tstop : ℚ
  nthrown : ℤ
  hits : List Hit
deriving DecidableEq

/-- The three end-of-scan assertions of `CosimaSim.open`, checked in
source order (`TB` first, then `TE`, then `TS`), each naming the key it
found missing. -/
def finalizeScan (st : OpenState) : Except OpenErr CosimaSim :=
  match st.tstart with
  | none => .error (.missingRequiredField "TB")
  | some t0 =>
    match st.tstop with
    | none => .error (.missingRequiredField "TE")
    | some t1 =>
      match st.nthrown with
      | none => .error (.missingRequiredField "TS")
      | some n => .ok ⟨t0, t1, n, st.hits⟩

/-- `CosimaSim.open`: scan every line, then check the end-of-scan
assertions. -/
def openSim (lines : List String) (dm : List (String × String)) (sh : ℚ) :
    Except OpenErr CosimaSim :=
  match openScan dm sh initState lines with
  | .error e => .error e
  | .ok st => finalizeScan st

/-- View of a `CosimaSim` whose `hits` attribute holds references into a
heap of `Hit` objects.  `merge` mutates hit objects owned by its second
operand, so its embedding makes the object store explicit: `hits` lists
indices into a `List Hit` heap. -/
structure SimRef where
  tstart : ℚ
  tstop : ℚ
  nthrown : ℤ
  hits : List Nat
deriving DecidableEq

/-- Dereference a hit object in the heap (out-of-range indices cannot
arise for valid runs; they return an inert dummy hit). -/
def derefHit (heap : List Hit) (i : ℕ) : Hit :=
  heap.getD i ⟨"", 0, 0⟩

/-- The in-place update `hit.time = hit.time + shift` performed by
`CosimaSim.merge` on a borrowed hit object. -/
def shiftHit (s : ℚ) (h : Hit) : Hit :=
  { h with time := h.time + s }

/-- Replace the object at index `i` of the heap by `f` of it; no-op when
`i` is out of range. -/
def modifyIdx : List Hit → ℕ → (Hit → Hit) → List Hit
  | [], _, _ => []
  | x :: xs, 0, f => f x :: xs
  | x :: xs, n + 1, f => x :: modifyIdx xs n f

/-- The `for hit in sim2.hits: hit.time = hit.time + shift` loop: shift
every hit object referenced by `refs`, in order. -/
def shiftRefs (s : ℚ) (heap : List Hit) (refs : List ℕ) : List Hit :=
  refs.foldl (fun h i => modifyIdx h i (shiftHit s)) heap

/-- The key order used by `np.argsort(self.hits)`: `Hit.__lt__` compares
times, so hit references are ordered by the time of the object they point
to. -/
def timeLe (heap : List Hit) (i j : ℕ) : Prop :=
  (derefHit heap i).time ≤ (derefHit heap j).time

instance (heap : List Hit) : DecidableRel (timeLe heap) :=
  fun i j => inferInstanceAs (Decidable ((derefHit heap i).time ≤ (derefHit heap j).time))

/-- `CosimaSim.merge(self, sim2, shift)` over the explicit heap: take the
min/max of the time bounds, sum `nthrown`, shift every hit object of
`sim2` in place, append `sim2`'s references to `self.hits`, and reorder
the combined reference list by ascending time of the (now shifted)
objects.  `np.argsort` is external to this repository and is modelled by
its documented contract — indices that would sort the array — realised
here by an insertion sort on the reference list; NumPy's default
`kind='quicksort'` leaves the relative order of equal keys unspecified, so
tie order in this model is a realisation artifact, not a source property.
The function returns the updated heap together with the updated `self`;
`sim2`'s attribute record is untouched (its reference list still points at
the now-mutated objects). -/
def mergeSim (heap : List Hit) (a b : SimRef) (s : ℚ) : List Hit × SimRef :=
  let heap2 := shiftRefs s heap b.hits
  let sorted := List.insertionSort (timeLe heap2) (a.hits ++ b.hits)
  (heap2,
   { tstart := min a.tstart (b.tstart + s)
     tstop := max a.tstop (b.tstop + s)
     nthrown := a.nthrown + b.nthrown
     hits := sorted })

/-- Model of `np.digitize(e, edges)` for a monotonically increasing edge
table: the number of edges not exceeding `e` (NumPy's `searchsorted`
insertion point with `side='right'`). -/
def npDigitize (e : ℚ) (edges : List ℚ) : ℕ :=
  edges.countP (fun b => decide (b ≤ e))

/-- The channel computation inside `CosimaSim.to_TTE`:
`np.digitize(energy, edges) - 1` clamped to `[0, nchannels-1]` by
`min(nchannels-1, max(0, channel))`. -/
def channelOf (edges : List ℚ) (e : ℚ) : ℤ :=
  let nchannels : ℤ := (edges.length : ℤ) - 1
  min (nchannels - 1) (max 0 ((npDigitize e edges : ℤ) - 1))

/-- The logical content of the `EventList` built by `to_TTE`: parallel
event time and channel sequences plus the per-channel low/high edges
(`edges[:-1]` and `edges[1:]`). -/
structure EventStream where
  times : List ℚ
  pha : List ℤ
  chanLo : List ℚ
  chanHi : List ℚ
deriving DecidableEq

/-- `CosimaSim.to_TTE` up to the external `TTE.from_data` wrapper: one
output entry per hit, in hit order, with the time unchanged and the
energy discretised by `channelOf`. -/
def toTTE (sim : CosimaSim) (edges : List ℚ) : EventStream :=
  { times := sim.hits.map (fun h => h.time)
    pha := sim.hits.map (fun h => channelOf edges h.energy)
    chanLo := edges.dropLast
    chanHi := edges.tail }


/-- C9: Scenario A.  On the concrete log `TB 0` / `TE 10` / `TS 100` /
`SE` / `TI 1.5` / `HT ;4.88500;4.88500;;50.0` / `EN`, with the notebook's
quadrant detector map and zero time shift, `open` returns a run with
`tstart = 0 s`, `tstop = 10 s`, `nthrown = 100` and exactly one hit
`(detector q0, time 1.5 s, energy 50 keV)`, the x, y and energy being the
2nd, 3rd and 5th semicolon-delimited fields of the `HT` line. -/
theorem scenarioA :
    openSim ["TB 0", "TE 10", "TS 100", "SE", "TI 1.5", "HT ;4.88500;4.88500;;50.0", "EN"]
      [("4.88500,4.88500", "q0"), ("-4.88500,4.88500", "q1"),
       ("-4.88500,-4.88500", "q2"), ("4.88500,-4.88500", "q3")] 0 =
    .ok ⟨0, 10, 100, [⟨"q0", 3/2, 50⟩]⟩ := by
  with_unfolding_all decide

/-- C8: the built event stream has exactly one entry per hit, each entry's
time is the corresponding hit's time unchanged and in the same order, and
the channel low/high tables are `edges[:-1]` and `edges[1:]`. -/
theorem toTTESpec (sim : CosimaSim) (edges : List ℚ) :
    (toTTE sim edges).times = sim.hits.map (fun h => h.time) ∧
    (toTTE sim edges).times.length = sim.hits.length ∧
    (toTTE sim edges).pha = sim.hits.map (fun h => channelOf edges h.energy) ∧
    (toTTE sim edges).pha.length = sim.hits.length ∧
    (toTTE sim edges).chanLo = edges.dropLast ∧
    (toTTE sim edges).chanHi = edges.tail :=
  ⟨rfl, by simp [toTTE], rfl, by simp [toTTE], rfl, rfl⟩

/-- C1 counterexample: a log whose `NF` line sits inside an event block is
accepted by `open` — the claim that `NF` anywhere aborts the parse is
false, because inside a block every key other than `EN`, `TI`, `HT` runs
into `continue` before the `NF`/`IN` check. -/
theorem nfInsideBlockOpenSucceeds :
    openSim ["TB 0", "TE 10", "TS 100", "SE", "NF", "EN"] [] 0 = .ok ⟨0, 10, 100, []⟩ := by
  with_unfolding_all decide

/-- C1 (amended): an `NF` or `IN` line is a fatal unsupported-construct
error exactly when the parser is outside an event block; inside a block
(between `SE` and the matching `EN`) such a line is skipped with no
effect on the state. -/
theorem nfInOnlyOutsideBlocks (dm : List (String × String)) (sh : ℚ) (st : OpenState)
    (line : String) :
    (st.inEvents = false → (pyKey line = "NF" ∨ pyKey line = "IN") →
      openStep dm sh st line = .error .unsupportedConstruct) ∧
    (st.inEvents = true → (pyKey line = "NF" ∨ pyKey line = "IN") →
      openStep dm sh st line = .ok st) := by
  constructor
  · intro hev hkey
    rcases hkey with h | h <;> simp [openStep, hev, h]
  · intro hev hkey
    rcases hkey with h | h <;> simp [openStep, hev, h]

/-- C1 witness: the amended dichotomy evaluated at the `NF` key, outside
and inside an event block. -/
theorem nfInOnlyOutsideBlocksApp :
    openStep [] 0 initState "NF" = .error .unsupportedConstruct ∧
    openStep [] 0 ⟨true, none, none, none, none, []⟩ "NF" =
      .ok ⟨true, none, none, none, none, []⟩ :=
  ⟨(nfInOnlyOutsideBlocks [] 0 initState "NF").1 rfl (Or.inl rfl),
   (nfInOnlyOutsideBlocks [] 0 ⟨true, none, none, none, none, []⟩ "NF").2 rfl (Or.inl rfl)⟩

/-- C2 counterexample: a log whose only `TE` line sits inside an event
block fails with a missing-`TE` error — a `TE` inside a block does NOT
set `tstop`, refuting the claim that the global keys are recognised
regardless of parser state. -/
theorem teInsideBlockNotRecognized :
    openSim ["TB 0", "TS 100", "SE", "TE 10", "EN"] [] 0 =
      .error (.missingRequiredField "TE") := by
  with_unfolding_all decide

/-- C2 (amended): the global keys `TB` / `TE` / `TS` are recognised only
while the parser is outside an event block, where they set `tstart`,
`tstop` and `nthrown` respectively; inside a block such a line is skipped
with no effect. -/
theorem globalKeysOnlyOutsideBlocks (dm : List (String × String)) (sh : ℚ) (st : OpenState)
    (line : String) :
    (st.inEvents = true →
      (pyKey line = "TB" ∨ pyKey line = "TE" ∨ pyKey line = "TS") →
      openStep dm sh st line = .ok st) ∧
    (st.inEvents = false → pyKey line = "TB" → ∀ q, parseField1Dec line = some q →
      openStep dm sh st line = .ok { st with tstart := some (q + sh) }) ∧
    (st.inEvents = false → pyKey line = "TE" → ∀ q, parseField1Dec line = some q →
      openStep dm sh st line = .ok { st with tstop := some (q + sh) }) ∧
    (st.inEvents = false → pyKey line = "TS" → ∀ n, parseField1Int line = some n →
      openStep dm sh st line = .ok { st with nthrown := some n }) := by
  refine ⟨?_, ?_, ?_, ?_⟩
  · intro hev hkey
    rcases hkey with h | h | h <;> simp [openStep, hev, h]
  · intro hev hkey q hq
    simp [openStep, hev, hkey, hq]
  · intro hev hkey q hq
    simp [openStep, hev, hkey, hq]
  · intro hev hkey n hn
    simp [openStep, hev, hkey, hn]

/-- C2 witness: the amended behaviour evaluated on the line `TE 10`,
inside and outside an event block. -/
theorem globalKeysOnlyOutsideBlocksApp :
    openStep [] 0 ⟨true, none, none, none, none, []⟩ "TE 10" =
      .ok ⟨true, none, none, none, none, []⟩ ∧
    openStep [] 0 initState "TE 10" = .ok ⟨false, none, none, some (10 + 0), none, []⟩ :=
  ⟨(globalKeysOnlyOutsideBlocks [] 0 ⟨true, none, none, none, none, []⟩ "TE 10").1 rfl
      (Or.inr (Or.inl rfl)),
   (globalKeysOnlyOutsideBlocks [] 0 initState "TE 10").2.2.1 rfl rfl 10
      (by with_unfolding_all decide)⟩

theorem modifyIdx_length (l : List Hit) (i : ℕ) (f : Hit → Hit) :
    (modifyIdx l i f).length = l.length := by
  induction l generalizing i with
  | nil => rfl
  | cons x xs ih =>
    cases i with
    | zero => rfl
    | succ n => simp [modifyIdx, ih]

theorem modifyIdx_getD_ne (l : List Hit) (i j : ℕ) (f : Hit → Hit) (d : Hit) (h : j ≠ i) :
    (modifyIdx l i f).getD j d = l.getD j d := by
  induction l generalizing i j with
  | nil => rfl
  | cons x xs ih =>
    cases i with
    | zero =>
      cases j with
      | zero => exact absurd rfl h
      | succ m => simp [modifyIdx]
    | succ n =>
      cases j with
      | zero => simp [modifyIdx]
      | succ m => simpa [modifyIdx] using ih n m (fun hh => h (by rw [hh]))

theorem modifyIdx_getD_self (l : List Hit) (i : ℕ) (f : Hit → Hit) (d : Hit)
    (h : i < l.length) :
    (modifyIdx l i f).getD i d = f (l.getD i d) := by
  induction l generalizing i with
  | nil => simp at h
  | cons x xs ih =>
    cases i with
    | zero => rfl
    | succ n => simpa [modifyIdx] using ih n (by simpa using h)

theorem shiftRefs_length (s : ℚ) (refs : List ℕ) :
    ∀ heap : List Hit, (shiftRefs s heap refs).length = heap.length := by
  induction refs with
  | nil => intro heap; rfl
  | cons r rest ih =>
    intro heap
    show (shiftRefs s (modifyIdx heap r (shiftHit s)) rest).length = heap.length
    exact (ih _).trans (modifyIdx_length heap r _)

theorem shiftRefs_deref_notMem (s : ℚ) (refs : List ℕ) :
    ∀ (heap : List Hit) (i : ℕ), i ∉ refs →
      derefHit (shiftRefs s heap refs) i = derefHit heap i := by
  induction refs with
  | nil => intro heap i _; rfl
  | cons r rest ih =>
    intro heap i hi
    have h1 : i ∉ rest := fun hh => hi (List.mem_cons_of_mem _ hh)
    have h2 : i ≠ r := fun hh => hi (hh ▸ List.mem_cons_self _ _)
    show derefHit (shiftRefs s (modifyIdx heap r (shiftHit s)) rest) i = derefHit heap i
    rw [ih _ i h1]
    simp only [derefHit]
    exact modifyIdx_getD_ne _ _ _ _ _ h2

theorem shiftRefs_deref_mem (s : ℚ) (refs : List ℕ) :
    ∀ (heap : List Hit) (i : ℕ), refs.Nodup → (∀ j ∈ refs, j < heap.length) → i ∈ refs →
      derefHit (shiftRefs s heap refs) i = shiftHit s (derefHit heap i) := by
  induction refs with
  | nil => intro heap i _ _ hi; simp at hi
  | cons r rest ih =>
    intro heap i hnd hv hi
    have hrn : r ∉ rest := (List.nodup_cons.mp hnd).1
    have hnd2 : rest.Nodup := (List.nodup_cons.mp hnd).2
    show derefHit (shiftRefs s (modifyIdx heap r (shiftHit s)) rest) i =
      shiftHit s (derefHit heap i)
    rcases List.mem_cons.mp hi with he | hm
    · subst he
      rw [shiftRefs_deref_notMem s rest _ i hrn]
      simp only [derefHit]
      rw [modifyIdx_getD_self _ _ _ _ (hv i (List.mem_cons_self _ _))]
    · have hir : i ≠ r := fun hh => hrn (hh ▸ hm)
      rw [ih _ i hnd2
        (fun j hj => by rw [modifyIdx_length]; exact hv j (List.mem_cons_of_mem _ hj)) hm]
      congr 1
      simp only [derefHit]
      exact modifyIdx_getD_ne _ _ _ _ _ hir

/-- C3: after `merge(a, b, s)` the receiver's bounds are
`min(a.tstart, b.tstart+s)` / `max(a.tstop, b.tstop+s)`, `nthrown` is the
sum, the hit collection holds exactly the old hits of `a` together with
every hit of `b` shifted by `s` (as a permutation of values), and it is
ordered by ascending time.  The hypotheses say the operands are valid,
separately-parsed runs: `b`'s references are live, held once each, and
not shared with `a`. -/
theorem mergeSpec (heap : List Hit) (a b : SimRef) (s : ℚ)
    (hvB : ∀ i ∈ b.hits, i < heap.length)
    (hdisj : ∀ i ∈ a.hits, i ∉ b.hits)
    (hnd : b.hits.Nodup) :
    (mergeSim heap a b s).2.tstart = min a.tstart (b.tstart + s) ∧
    (mergeSim heap a b s).2.tstop = max a.tstop (b.tstop + s) ∧
    (mergeSim heap a b s).2.nthrown = a.nthrown + b.nthrown ∧
    List.Perm ((mergeSim heap a b s).2.hits.map (derefHit (mergeSim heap a b s).1))
      (a.hits.map (derefHit heap) ++ b.hits.map (fun i => shiftHit s (derefHit heap i))) ∧
    List.Sorted (fun x y : ℚ => x ≤ y)
      ((mergeSim heap a b s).2.hits.map (fun i => (derefHit (mergeSim heap a b s).1 i).time)) := by
  refine ⟨rfl, rfl, rfl, ?_, ?_⟩
  · have hperm : List.Perm ((mergeSim heap a b s).2.hits) (a.hits ++ b.hits) :=
      List.perm_insertionSort _ _
    have h1 := hperm.map (derefHit (shiftRefs s heap b.hits))
    have hA : a.hits.map (derefHit (shiftRefs s heap b.hits)) = a.hits.map (derefHit heap) :=
      List.map_congr_left (fun i hi => shiftRefs_deref_notMem s b.hits heap i (hdisj i hi))
    have hB : b.hits.map (derefHit (shiftRefs s heap b.hits)) =
        b.hits.map (fun i => shiftHit s (derefHit heap i)) :=
      List.map_congr_left (fun i hi => shiftRefs_deref_mem s b.hits heap i hnd hvB hi)
    have h2 : (a.hits ++ b.hits).map (derefHit (shiftRefs s heap b.hits)) =
        a.hits.map (derefHit heap) ++ b.hits.map (fun i => shiftHit s (derefHit heap i)) := by
      rw [List.map_append, hA, hB]
    exact h2 ▸ h1
  · haveI : IsTotal ℕ (timeLe (shiftRefs s heap b.hits)) := ⟨fun i j => le_total _ _⟩
    haveI : IsTrans ℕ (timeLe (shiftRefs s heap b.hits)) :=
      ⟨fun i j k hij hjk => le_trans hij hjk⟩
    have hs := List.sorted_insertionSort (timeLe (shiftRefs s heap b.hits)) (a.hits ++ b.hits)
    exact List.Pairwise.map _ (fun i j hij => hij) hs

/-- C3 witness: `mergeSpec` applied to two one-hit runs over a concrete
two-object heap, with zero shift. -/
theorem mergeSpecApp :
    (mergeSim [⟨"d0", 1, 5⟩, ⟨"d1", 5, 2⟩] ⟨0, 10, 3, [0]⟩ ⟨1, 2, 4, [1]⟩ 0).2.tstart =
      min 0 (1 + 0) ∧
    (mergeSim [⟨"d0", 1, 5⟩, ⟨"d1", 5, 2⟩] ⟨0, 10, 3, [0]⟩ ⟨1, 2, 4, [1]⟩ 0).2.tstop =
      max 10 (2 + 0) ∧
    (mergeSim [⟨"d0", 1, 5⟩, ⟨"d1", 5, 2⟩] ⟨0, 10, 3, [0]⟩ ⟨1, 2, 4, [1]⟩ 0).2.nthrown = 3 + 4 ∧
    List.Perm
      ((mergeSim [⟨"d0", 1, 5⟩, ⟨"d1", 5, 2⟩] ⟨0, 10, 3, [0]⟩ ⟨1, 2, 4, [1]⟩ 0).2.hits.map
        (derefHit (mergeSim [⟨"d0", 1, 5⟩, ⟨"d1", 5, 2⟩] ⟨0, 10, 3, [0]⟩ ⟨1, 2, 4, [1]⟩ 0).1))
      (([0] : List ℕ).map (derefHit [⟨"d0", 1, 5⟩, ⟨"d1", 5, 2⟩]) ++
        ([1] : List ℕ).map (fun i => shiftHit 0 (derefHit [⟨"d0", 1, 5⟩, ⟨"d1", 5, 2⟩] i))) ∧
    List.Sorted (fun x y : ℚ => x ≤ y)
      ((mergeSim [⟨"d0", 1, 5⟩, ⟨"d1", 5, 2⟩] ⟨0, 10, 3, [0]⟩ ⟨1, 2, 4, [1]⟩ 0).2.hits.map
        (fun i =>
          (derefHit (mergeSim [⟨"d0", 1, 5⟩, ⟨"d1", 5, 2⟩] ⟨0, 10, 3, [0]⟩ ⟨1, 2, 4, [1]⟩ 0).1
            i).time)) :=
  mergeSpec [⟨"d0", 1, 5⟩, ⟨"d1", 5, 2⟩] ⟨0, 10, 3, [0]⟩ ⟨1, 2, 4, [1]⟩ 0
    (by decide) (by decide) (by decide)

/-- C5 counterexample: merging mutates the operand's hit object in place
and aliases it into the receiver: after `merge` with shift `2`, the object
still referenced by `b.hits` has a different time than before, and the
very same reference appears in the receiver's hit list. -/
theorem mergeAliasingCex :
    (derefHit (mergeSim [⟨"d", 1, 5⟩] ⟨0, 10, 1, []⟩ ⟨0, 1, 1, [0]⟩ 2).1 0).time ≠
      (derefHit [⟨"d", 1, 5⟩] 0).time ∧
    0 ∈ (mergeSim [⟨"d", 1, 5⟩] ⟨0, 10, 1, []⟩ ⟨0, 1, 1, [0]⟩ 2).2.hits := by
  with_unfolding_all decide

/-- C5 (amended): `merge` does not construct new hit values — it mutates
the hits referenced by `b` in place, adding the shift to their times, and
aliases those very references into the receiver's hit list. -/
theorem mergeMutatesSharedHits (heap : List Hit) (a b : SimRef) (s : ℚ)
    (hvB : ∀ i ∈ b.hits, i < heap.length) (hnd : b.hits.Nodup) :
    (∀ i ∈ b.hits, (derefHit (mergeSim heap a b s).1 i).time = (derefHit heap i).time + s) ∧
    (∀ i ∈ b.hits, i ∈ (mergeSim heap a b s).2.hits) := by
  constructor
  · intro i hi
    show (derefHit (shiftRefs s heap b.hits) i).time = (derefHit heap i).time + s
    rw [shiftRefs_deref_mem s b.hits heap i hnd hvB hi]
    rfl
  · intro i hi
    have hperm : List.Perm ((mergeSim heap a b s).2.hits) (a.hits ++ b.hits) :=
      List.perm_insertionSort _ _
    exact hperm.mem_iff.mpr (List.mem_append_right _ hi)

/-- C5 witness: the amended statement at a concrete one-hit operand. -/
theorem mergeMutatesSharedHitsApp :
    (derefHit (mergeSim [⟨"d", 1, 5⟩] ⟨0, 10, 1, []⟩ ⟨0, 1, 1, [0]⟩ 2).1 0).time =
      (derefHit [⟨"d", 1, 5⟩] 0).time + 2 ∧
    0 ∈ (mergeSim [⟨"d", 1, 5⟩] ⟨0, 10, 1, []⟩ ⟨0, 1, 1, [0]⟩ 2).2.hits :=
  ⟨(mergeMutatesSharedHits [⟨"d", 1, 5⟩] ⟨0, 10, 1, []⟩ ⟨0, 1, 1, [0]⟩ 2 (by decide)
      (by decide)).1 0 (by decide),
   (mergeMutatesSharedHits [⟨"d", 1, 5⟩] ⟨0, 10, 1, []⟩ ⟨0, 1, 1, [0]⟩ 2 (by decide)
      (by decide)).2 0 (by decide)⟩

theorem countP_eq_of_prefix_le (e : ℚ) :
    ∀ (l : List ℚ) (k : ℕ), k ≤ l.length →
      (∀ i, i < k → l.getD i 0 ≤ e) →
      (∀ i, k ≤ i → i < l.length → e < l.getD i 0) →
      l.countP (fun b => decide (b ≤ e)) = k := by
  intro l
  induction l with
  | nil =>
    intro k hk _ _
    simp only [List.length_nil, Nat.le_zero] at hk
    simp [hk]
  | cons a t ih =>
    intro k hk hlow hhigh
    cases k with
    | zero =>
      have ha : ¬(a ≤ e) := by
        have h0 := hhigh 0 (Nat.zero_le _) (by simp)
        simp only [List.getD_cons_zero] at h0
        exact not_le.mpr h0
      have ht : t.countP (fun b => decide (b ≤ e)) = 0 :=
        ih 0 (Nat.zero_le _) (fun i hi => absurd hi (Nat.not_lt_zero _))
          (fun i _ hi => by
            have := hhigh (i + 1) (Nat.zero_le _) (by simpa using Nat.succ_lt_succ hi)
            simpa using this)
      simp [List.countP_cons, ht, ha]
    | succ k2 =>
      have ha : a ≤ e := by
        have := hlow 0 (Nat.succ_pos _)
        simpa using this
      have ht : t.countP (fun b => decide (b ≤ e)) = k2 :=
        ih k2 (by simpa using hk)
          (fun i hi => by
            have := hlow (i + 1) (Nat.succ_lt_succ hi)
            simpa using this)
          (fun i hki hi => by
            have := hhigh (i + 1) (Nat.succ_le_succ hki) (by simpa using Nat.succ_lt_succ hi)
            simpa using this)
      simp [List.countP_cons, ht, ha]

theorem pairwiseLt_getD_mono (l : List ℚ) (hp : l.Pairwise (fun a b : ℚ => a < b))
    (i j : ℕ) (hij : i ≤ j) (hj : j < l.length) : l.getD i 0 ≤ l.getD j 0 := by
  rcases Nat.eq_or_lt_of_le hij with he | hlt
  · rw [he]
  · have hi : i < l.length := lt_trans hlt hj
    have hg := List.pairwise_iff_get.mp hp ⟨i, hi⟩ ⟨j, hj⟩ hlt
    rw [List.getD_eq_get? , List.getD_eq_get?, List.get?_eq_get hi, List.get?_eq_get hj]
    exact le_of_lt hg

theorem bracket_exists (e : ℚ) :
    ∀ l : List ℚ, l.getD 0 0 ≤ e → e < l.getD (l.length - 1) 0 →
      ∃ j, j + 1 < l.length ∧ l.getD j 0 ≤ e ∧ e < l.getD (j + 1) 0 := by
  intro l
  induction l with
  | nil =>
    intro h1 h2
    simp only [List.getD] at h1 h2
    exact absurd (h1.trans_lt h2) (lt_irrefl _)
  | cons a t ih =>
    intro h1 h2
    cases t with
    | nil =>
      simp only [List.length_cons, List.length_nil, List.getD_cons_zero] at h1 h2
      exact absurd (h1.trans_lt h2) (lt_irrefl _)
    | cons b u =>
      by_cases hb : e < b
      · refine ⟨0, by simp, by simpa using h1, by simpa using hb⟩
      · have hble : b ≤ e := not_lt.mp hb
        have h2' : e < (b :: u).getD ((b :: u).length - 1) 0 := by
          have : (a :: b :: u).length - 1 = (b :: u).length := by simp
          rw [this] at h2
          have hlen : (b :: u).length = ((b :: u).length - 1) + 1 := by simp
          rw [hlen] at h2
          simpa using h2
        obtain ⟨j, hj1, hj2, hj3⟩ := ih (by simpa using hble) h2'
        exact ⟨j + 1, by simpa using Nat.succ_lt_succ hj1, by simpa using hj2,
          by simpa using hj3⟩

/-- C6: channel assignment is total and clamped.  For a strictly
increasing edge table with `N + 1` edges (`N ≥ 1` channels) and any
energy `e`: the channel lies in `[0, N-1]`; energies below the first edge
clamp to channel `0`; energies at or above the last edge clamp to channel
`N - 1`; and for interior energies the channel is `i` exactly when
`edges[i] ≤ e < edges[i+1]`.  Since a channel is produced for every `e`,
no hit is dropped for being out of range. -/
theorem channelTotalClamped (edges : List ℚ) (N : ℕ) (e : ℚ)
    (hN : 1 ≤ N) (hlen : edges.length = N + 1)
    (hmono : edges.Pairwise (fun a b : ℚ => a < b)) :
    (0 ≤ channelOf edges e ∧ channelOf edges e ≤ (N : ℤ) - 1) ∧
    (e < edges.getD 0 0 → channelOf edges e = 0) ∧
    (edges.getD N 0 ≤ e → channelOf edges e = (N : ℤ) - 1) ∧
    (∀ i : ℕ, i + 1 ≤ N → edges.getD i 0 ≤ e → e < edges.getD (i + 1) 0 →
      channelOf edges e = (i : ℤ)) ∧
    (edges.getD 0 0 ≤ e → e < edges.getD N 0 → ∀ i : ℕ, channelOf edges e = (i : ℤ) →
      edges.getD i 0 ≤ e ∧ e < edges.getD (i + 1) 0) := by
  have hint : ∀ i : ℕ, i + 1 ≤ N → edges.getD i 0 ≤ e → e < edges.getD (i + 1) 0 →
      channelOf edges e = (i : ℤ) := by
    intro i hiN hle hlt
    have hcount : npDigitize e edges = i + 1 :=
      countP_eq_of_prefix_le e edges (i + 1) (by omega)
        (fun j hj => le_trans (pairwiseLt_getD_mono edges hmono j i (by omega) (by omega)) hle)
        (fun j hji hj =>
          lt_of_lt_of_le hlt (pairwiseLt_getD_mono edges hmono (i + 1) j hji hj))
    simp only [channelOf, hcount, hlen]
    push_cast
    omega
  refine ⟨?_, ?_, ?_, hint, ?_⟩
  · have hc : (0 : ℤ) ≤ (npDigitize e edges : ℤ) := Int.ofNat_nonneg _
    simp only [channelOf, hlen]
    push_cast
    omega
  · intro hlt
    have hcount : npDigitize e edges = 0 :=
      countP_eq_of_prefix_le e edges 0 (Nat.zero_le _)
        (fun j hj => absurd hj (Nat.not_lt_zero _))
        (fun j _ hj =>
          lt_of_lt_of_le hlt (pairwiseLt_getD_mono edges hmono 0 j (Nat.zero_le _) hj))
    simp only [channelOf, hcount, hlen]
    push_cast
    omega
  · intro hle
    have hcount : npDigitize e edges = edges.length :=
      countP_eq_of_prefix_le e edges edges.length (le_refl _)
        (fun j hj =>
          le_trans (pairwiseLt_getD_mono edges hmono j N (by omega) (by omega)) hle)
        (fun j hji hj => absurd (lt_of_le_of_lt hji hj) (lt_irrefl _))
    simp only [channelOf, hcount, hlen]
    push_cast
    omega
  · intro hlo hhi i hci
    have hlast : e < edges.getD (edges.length - 1) 0 := by
      rw [hlen]
      simpa using hhi
    obtain ⟨j, hj1, hj2, hj3⟩ := bracket_exists e edges hlo hlast
    have hj : channelOf edges e = (j : ℤ) := hint j (by omega) hj2 hj3
    have hij : i = j := by
      have := hci.symm.trans hj
      exact_mod_cast this
    rw [hij]
    exact ⟨hj2, hj3⟩

/-- C6 witness: Scenario E.  With the edge table `[4.5, 10, 100, 2000]`
(three channels), energy `3 keV` lands in channel `0` (underflow) and
`5000 keV` in channel `2` (overflow), and both channels are in bounds. -/
theorem channelTotalClampedApp :
    (0 ≤ channelOf [9/2, 10, 100, 2000] 3 ∧ channelOf [9/2, 10, 100, 2000] 3 ≤ (3 : ℤ) - 1) ∧
    channelOf [9/2, 10, 100, 2000] 3 = 0 ∧
    channelOf [9/2, 10, 100, 2000] 5000 = (3 : ℤ) - 1 :=
  ⟨(channelTotalClamped [9/2, 10, 100, 2000] 3 3 (by omega) (by with_unfolding_all decide)
      (by with_unfolding_all decide)).1,
   (channelTotalClamped [9/2, 10, 100, 2000] 3 3 (by omega) (by with_unfolding_all decide)
      (by with_unfolding_all decide)).2.1 (by with_unfolding_all decide),
   (channelTotalClamped [9/2, 10, 100, 2000] 3 5000 (by omega) (by with_unfolding_all decide)
      (by with_unfolding_all decide)).2.2.1 (by with_unfolding_all decide)⟩

theorem openStep_ne_missing (dm : List (String × String)) (sh : ℚ) (st : OpenState)
    (line : String) (k : String) :
    openStep dm sh st line ≠ .error (.missingRequiredField k) := by
  intro h
  simp only [openStep] at h
  (repeat' split at h) <;> simp_all

theorem openScan_error_cases (dm : List (String × String)) (sh : ℚ) :
    ∀ (ls : List String) (st : OpenState) (e : OpenErr),
      openScan dm sh st ls = .error e →
      ∃ st2 l, openStep dm sh st2 l = .error e := by
  intro ls
  induction ls with
  | nil =>
    intro st e h
    simp [openScan] at h
  | cons l ls ih =>
    intro st e h
    rw [openScan] at h
    cases hs : openStep dm sh st l with
    | error e2 =>
      rw [hs] at h
      injection h with h2
      exact ⟨st, l, by rw [hs, h2]⟩
    | ok st2 =>
      rw [hs] at h
      exact ih st2 e h

/-- C7: `open` fails with a missing-required-field error exactly when the
scan of the whole log completes (no other exception is raised) and at
least one of `tstart` (`TB`), `tstop` (`TE`), `nthrown` (`TS`) was never
set; the error is surfaced only after end-of-input, and the key it names
was indeed never set. -/
theorem missingFieldIff (lines : List String) (dm : List (String × String)) (sh : ℚ) :
    ((∃ k, openSim lines dm sh = .error (.missingRequiredField k)) ↔
      (∃ st, openScan dm sh initState lines = .ok st ∧
        (st.tstart = none ∨ st.tstop = none ∨ st.nthrown = none))) ∧
    (openSim lines dm sh = .error (.missingRequiredField "TB") →
      ∃ st, openScan dm sh initState lines = .ok st ∧ st.tstart = none) ∧
    (openSim lines dm sh = .error (.missingRequiredField "TE") →
      ∃ st, openScan dm sh initState lines = .ok st ∧ st.tstop = none) ∧
    (openSim lines dm sh = .error (.missingRequiredField "TS") →
      ∃ st, openScan dm sh initState lines = .ok st ∧ st.nthrown = none) := by
  cases hscan : openScan dm sh initState lines with
  | error e =>
    have hop : openSim lines dm sh = .error e := by
      rw [openSim, hscan]
    have hne : ∀ k, openSim lines dm sh ≠ .error (.missingRequiredField k) := by
      intro k hk
      rw [hop] at hk
      injection hk with h2
      obtain ⟨st2, l, hl⟩ := openScan_error_cases dm sh lines initState e hscan
      exact openStep_ne_missing dm sh st2 l k (by rw [hl, h2])
    exact ⟨⟨fun ⟨k, hk⟩ => absurd hk (hne k), fun ⟨st, hst, _⟩ => Except.noConfusion hst⟩,
      fun h => absurd h (hne "TB"), fun h => absurd h (hne "TE"), fun h => absurd h (hne "TS")⟩
  | ok st =>
    have hfin : openSim lines dm sh = finalizeScan st := by
      rw [openSim, hscan]
    rcases h0 : st.tstart with _ | t0
    · have hop : openSim lines dm sh = .error (.missingRequiredField "TB") := by
        rw [hfin, finalizeScan, h0]
      refine ⟨⟨fun _ => ⟨st, rfl, Or.inl h0⟩, fun _ => ⟨"TB", hop⟩⟩,
        fun _ => ⟨st, rfl, h0⟩, fun h => ?_, fun h => ?_⟩ <;>
        · rw [hop] at h
          injection h with h2
          simp at h2
    · rcases h1 : st.tstop with _ | t1
      · have hop : openSim lines dm sh = .error (.missingRequiredField "TE") := by
          rw [hfin, finalizeScan, h0, h1]
        refine ⟨⟨fun _ => ⟨st, rfl, Or.inr (Or.inl h1)⟩, fun _ => ⟨"TE", hop⟩⟩,
          fun h => ?_, fun _ => ⟨st, rfl, h1⟩, fun h => ?_⟩ <;>
          · rw [hop] at h
            injection h with h2
            simp at h2
      · rcases h2 : st.nthrown with _ | n
        · have hop : openSim lines dm sh = .error (.missingRequiredField "TS") := by
            rw [hfin, finalizeScan, h0, h1, h2]
          refine ⟨⟨fun _ => ⟨st, rfl, Or.inr (Or.inr h2)⟩, fun _ => ⟨"TS", hop⟩⟩,
            fun h => ?_, fun h => ?_, fun _ => ⟨st, rfl, h2⟩⟩ <;>
            · rw [hop] at h
              injection h with hh
              simp at hh
        · have hok : openSim lines dm sh = .ok ⟨t0, t1, n, st.hits⟩ := by
            rw [hfin, finalizeScan, h0, h1, h2]
          have hne : ∀ k, openSim lines dm sh ≠ .error (.missingRequiredField k) := by
            intro k hk
            rw [hok] at hk
            exact Except.noConfusion hk
          refine ⟨⟨fun ⟨k, hk⟩ => absurd hk (hne k), fun ⟨st2, hst2, hor⟩ => ?_⟩,
            fun h => absurd h (hne "TB"), fun h => absurd h (hne "TE"),
            fun h => absurd h (hne "TS")⟩
          injection hst2 with hst2
          subst hst2
          rcases hor with h | h | h
          · rw [h0] at h; exact Option.noConfusion h
          · rw [h1] at h; exact Option.noConfusion h
          · rw [h2] at h; exact Option.noConfusion h

/-- C7 witness: Scenario D.  A log with no `TS` line scans to completion
with `nthrown` still unset, so `open` fails with the missing-field error
naming `TS` — obtained by instantiating `missingFieldIff` at that log. -/
theorem missingFieldIffApp :
    ∃ st, openScan [] 0 initState ["TB 0", "TE 10", "SE", "EN"] = .ok st ∧ st.nthrown = none :=
  (missingFieldIff ["TB 0", "TE 10", "SE", "EN"] [] 0).2.2.2
    (by with_unfolding_all decide)

/-- C10: the current time used for hits is set only by `TI` records — in
particular `SE` (starting a new event block) leaves it untouched, so an
`HT` before any `TI` of its block receives the time of the last `TI` of
an earlier block; and an `HT` reached while `time` was never bound at all
makes `open` fail (the Python `NameError` on the unbound local) instead
of producing a hit. -/
theorem timeCarryAcrossBlocks (dm : List (String × String)) (sh : ℚ) (st : OpenState)
    (line : String) :
    (st.inEvents = false → pyKey line = "SE" →
      openStep dm sh st line = .ok { st with inEvents := true }) ∧
    (∀ st2, openStep dm sh st line = .ok st2 → pyKey line ≠ "TI" → st2.time = st.time) ∧
    (∀ p0 p1 p2 p3 p4 rest det en,
      st.inEvents = true → pyKey line = "HT" →
      pySplitSemis line = p0 :: p1 :: p2 :: p3 :: p4 :: rest →
      List.lookup (pyStrip p1 ++ "," ++ pyStrip p2) dm = some det →
      parseDec p4 = some en →
      (st.time = none → openStep dm sh st line = .error .unboundTime) ∧
      (∀ t, st.time = some t →
        openStep dm sh st line = .ok { st with hits := st.hits ++ [⟨det, t, en⟩] })) := by
  refine ⟨?_, ?_, ?_⟩
  · intro hev hkey
    simp [openStep, hev, hkey]
  · intro st2 h hne
    simp only [openStep] at h
    (repeat' split at h) <;> first
      | (cases h; rfl)
      | simp_all
  · intro p0 p1 p2 p3 p4 rest det en hev hkey hsplit hlookup hparse
    constructor
    · intro htime
      simp [openStep, hev, hkey, hsplit, hlookup, hparse, htime]
    · intro t htime
      simp [openStep, hev, hkey, hsplit, hlookup, hparse, htime]

/-- C10 witness: `SE` preserves the unbound time; a well-formed `HT`
record inside a block fails on unbound time, and succeeds with the
carried time `5` when a `TI` of an earlier block had bound it. -/
theorem timeCarryAcrossBlocksApp :
    openStep [] 0 initState "SE" = .ok ⟨true, none, none, none, none, []⟩ ∧
    openStep [("a,b", "d")] 0 ⟨true, none, none, none, none, []⟩ "HT ;a;b;;7" =
      .error .unboundTime ∧
    openStep [("a,b", "d")] 0 ⟨true, some 5, none, none, none, []⟩ "HT ;a;b;;7" =
      .ok ⟨true, some 5, none, none, none, [⟨"d", 5, 7⟩]⟩ :=
  ⟨(timeCarryAcrossBlocks [] 0 initState "SE").1 rfl rfl,
   ((timeCarryAcrossBlocks [("a,b", "d")] 0 ⟨true, none, none, none, none, []⟩
       "HT ;a;b;;7").2.2 "HT " "a" "b" "" "7" [] "d" 7 rfl rfl (by decide)
       (by decide) (by with_unfolding_all decide)).1 rfl,
   ((timeCarryAcrossBlocks [("a,b", "d")] 0 ⟨true, some 5, none, none, none, []⟩
       "HT ;a;b;;7").2.2 "HT " "a" "b" "" "7" [] "d" 7 rfl rfl (by decide)
       (by decide) (by with_unfolding_all decide)).2 5 rfl⟩
